import Mathlib

/-!
Verification of the wysiwyg-rust rich-text editing engine.

This file shallowly embeds the Rust sources of the engine (crates/wysiwyg)
into Lean 4 and proves, or refutes, a list of claims made by the
natural-language specification about the code.

Conventions of the embedding:
- Strings are lists of Unicode scalar values (Lean Char).  All characters
  appearing in the claims occupy a single UTF-16 code unit, so code-unit
  offsets coincide with character offsets for every input considered here.
- Machine integers (usize) become Nat; the signed Location type becomes Int.
- Functions that can panic in Rust (assertion failures, unset handles)
  return Option, with none standing for the panic.
- Code of the repository that is not part of the given sources (the Dom
  struct with its range resolver, the history stacks, the HTML parser) is
  modelled from the specification; each such definition carries a doc
  comment starting with: Modelled from the spec.
-/

namespace Wysiwyg

/-! ## DomHandle (dom/dom_handle.rs)

A DomHandle stores the location of a node in the tree as a path of child
indices, or none if not yet known.  Operations are pure path arithmetic;
none of them consults the tree. -/

structure DomHandle where
  path : Option (List Nat)
deriving DecidableEq

namespace DomHandle

/-- Create a new handle with the provided path (DomHandle::from_raw). -/
def fromRaw (path : List Nat) : DomHandle := ⟨some path⟩

/-- Create a new UNSET handle (DomHandle::new_unset). -/
def newUnset : DomHandle := ⟨none⟩

/-- Returns true if this handle has been set to a value (DomHandle::is_set). -/
def isSet (h : DomHandle) : Bool := h.path.isSome

/-- Returns true if this handle refers to a root node (DomHandle::is_root).
Returns none if the handle is unset, where the source panics. -/
def isRoot (h : DomHandle) : Option Bool :=
  h.path.map List.isEmpty

/-- Return the handle of this node's parent (DomHandle::parent_handle).
Returns none where the source panics: on an unset handle and on the root. -/
def parentHandle (h : DomHandle) : Option DomHandle :=
  match h.path with
  | none => none
  | some p => if p.isEmpty then none else some ⟨some p.dropLast⟩

/-- Return a new handle for one of our children, with the supplied index
(DomHandle::child_handle). Returns none where the source panics (unset). -/
def childHandle (h : DomHandle) (childIndex : Nat) : Option DomHandle :=
  match h.path with
  | none => none
  | some p => some ⟨some (p ++ [childIndex])⟩

/-- Return this handle's position within its parent
(DomHandle::index_in_parent). Returns none where the source panics:
on an unset handle and on the root (last() of an empty path). -/
def indexInParent (h : DomHandle) : Option Nat :=
  match h.path with
  | none => none
  | some p => p.getLast?

/-- Total variant of child_handle for internal use at call sites where the
source has already asserted that the handle is set; on an unset handle the
source panics, here the result is the unset handle (never relied upon). -/
def childOf (h : DomHandle) (childIndex : Nat) : DomHandle :=
  ⟨h.path.map (fun p => p ++ [childIndex])⟩

end DomHandle

/-! ## Character classification (composer_model/delete_text.rs and
dom/nodes/text_node.rs) -/

/-- The Unicode White_Space property, which is what Rust
char::is_whitespace tests. -/
def rustIsWhitespace (c : Char) : Bool :=
  let v := c.toNat
  (0x09 ≤ v && v ≤ 0x0D) || v == 0x20 || v == 0x85 || v == 0xA0 ||
  v == 0x1680 || (0x2000 ≤ v && v ≤ 0x200A) || v == 0x2028 ||
  v == 0x2029 || v == 0x202F || v == 0x205F || v == 0x3000

/-- Rust char::is_ascii_punctuation: U+0021..=U+002F, U+003A..=U+0040,
U+005B..=U+0060, U+007B..=U+007E. -/
def isAsciiPunctuation (c : Char) : Bool :=
  let v := c.toNat
  (0x21 ≤ v && v ≤ 0x2F) || (0x3A ≤ v && v ≤ 0x40) ||
  (0x5B ≤ v && v ≤ 0x60) || (0x7B ≤ v && v ≤ 0x7E)

/-- The zero-width space used as block boundary marker (char::zwsp). -/
def zwspChar : Char := Char.ofNat 0x200B

/-- The no-break space U+00A0. -/
def nbspChar : Char := Char.ofNat 0xA0

/-- The pound sign U+00A3. -/
def poundChar : Char := Char.ofNat 0xA3

/-- Categories of character for word deletion (enum CharType in
composer_model/delete_text.rs). -/
inductive CharType where
  | whitespace
  | newline
  | punctuation
  | other
  | none
deriving DecidableEq

/-- ComposerModel::get_char_type (composer_model/delete_text.rs lines
293-306): classify an optional character for word-granularity deletion. -/
def getCharType (char : Option Char) : CharType :=
  match char with
  | some c =>
    if rustIsWhitespace c then CharType.whitespace
    else if isAsciiPunctuation c || c == poundChar then CharType.punctuation
    else CharType.other
  | Option.none => CharType.none

/-- Categories of character in dom/nodes/text_node.rs (enum CharType
there, including a ZWSP category). -/
inductive TextCharType where
  | whitespace
  | zwsp
  | punctuation
  | other
deriving DecidableEq

/-- get_char_type in dom/nodes/text_node.rs lines 152-166.  Unlike the
classifier in delete_text.rs it has a ZWSP category and no special case
for the pound sign. -/
def textNodeGetCharType (c : Char) : TextCharType :=
  if rustIsWhitespace c then TextCharType.whitespace
  else if c == zwspChar then TextCharType.zwsp
  else if isAsciiPunctuation c then TextCharType.punctuation
  else TextCharType.other

/-! ## Inline format types (format_type.rs) -/

/-- enum InlineFormatType. -/
inductive InlineFormatType where
  | bold
  | italic
  | strikeThrough
  | underline
  | inlineCode
deriving DecidableEq

namespace InlineFormatType

/-- InlineFormatType::tag: the canonical tag emitted for each format. -/
def tag : InlineFormatType → List Char
  | bold => "strong".toList
  | italic => "em".toList
  | strikeThrough => "del".toList
  | underline => "u".toList
  | inlineCode => "code".toList

/-- The From S for InlineFormatType conversion (format_type.rs lines
48-61), reading a tag name; the catch-all arm of the source panics, here
none.  Used through TryFrom by new_formatting_from_tag. -/
def tryFromTag (value : List Char) : Option InlineFormatType :=
  if value = "b".toList ∨ value = "strong".toList then some bold
  else if value = "i".toList ∨ value = "em".toList then some italic
  else if value = "del".toList then some strikeThrough
  else if value = "u".toList then some underline
  else if value = "code".toList then some inlineCode
  else none

end InlineFormatType

/-! ## The node model (dom/nodes/container_node.rs, dom/nodes/text_node.rs
and the DomNode enum of the crate) -/

/-- enum ContainerNodeKind (container_node.rs lines 37-47). -/
inductive ContainerNodeKind where
  | generic
  | formatting (format : InlineFormatType)
  | link (url : List Char)
  | list
  | listItem
deriving DecidableEq

/-- struct TextNode (text_node.rs): character data plus a handle. -/
structure TextNode where
  data : List Char
  handle : DomHandle
deriving DecidableEq

mutual

/-- The DomNode enum of the crate: Container, Text or LineBreak (the
variants matched throughout composer_model). -/
inductive DomNode where
  | container (c : ContainerNode)
  | text (t : TextNode)
  | lineBreak (handle : DomHandle)

/-- struct ContainerNode (container_node.rs lines 25-35): tag name, kind,
optional attributes, children, handle. -/
inductive ContainerNode where
  | mk (name : List Char) (kind : ContainerNodeKind)
      (attrs : Option (List (List Char × List Char)))
      (children : List DomNode) (handle : DomHandle)

end

namespace ContainerNode

def name : ContainerNode → List Char
  | .mk n _ _ _ _ => n

def kind : ContainerNode → ContainerNodeKind
  | .mk _ k _ _ _ => k

def attrs : ContainerNode → Option (List (List Char × List Char))
  | .mk _ _ a _ _ => a

def children : ContainerNode → List DomNode
  | .mk _ _ _ cs _ => cs

def handle : ContainerNode → DomHandle
  | .mk _ _ _ _ h => h

end ContainerNode

namespace DomNode

/-- DomNode::handle, reading the stored handle of any variant. -/
def handle : DomNode → DomHandle
  | .container c => c.handle
  | .text t => t.handle
  | .lineBreak h => h

/-- DomNode::new_text. -/
def newText (data : List Char) : DomNode :=
  .text ⟨data, DomHandle.newUnset⟩

end DomNode

mutual

/-- DomNode::set_handle, dispatching on the variant. -/
def setHandleNode : DomNode → DomHandle → DomNode
  | .container c, h => .container (setHandleContainer c h)
  | .text t, h => .text { t with handle := h }
  | .lineBreak _, h => .lineBreak h

/-- ContainerNode::set_handle (container_node.rs lines 195-200): store the
handle and recursively re-handle every child with child_handle(i). -/
def setHandleContainer : ContainerNode → DomHandle → ContainerNode
  | .mk name kind attrs children _, h =>
      .mk name kind attrs (setHandleChildren h 0 children) h

/-- The enumerate loop inside ContainerNode::set_handle: child i receives
handle.child_handle(i). -/
def setHandleChildren : DomHandle → Nat → List DomNode → List DomNode
  | _, _, [] => []
  | h, i, c :: cs => setHandleNode c (h.childOf i) :: setHandleChildren h (i + 1) cs

end

mutual

/-- DomNode::text_len: text length contribution of a node.  A text node
contributes its data length, a line break 1, a container the sum over its
children (ContainerNode::text_len, container_node.rs lines 243-245). -/
def textLenNode : DomNode → Nat
  | .container c => textLenContainer c
  | .text t => t.data.length
  | .lineBreak _ => 1

def textLenContainer : ContainerNode → Nat
  | .mk _ _ _ children _ => textLenChildren children

def textLenChildren : List DomNode → Nat
  | [] => 0
  | c :: cs => textLenNode c + textLenChildren cs

end

namespace ContainerNode

/-- ContainerNode::new_formatting (container_node.rs lines 87-98): a fresh
formatting container named with the canonical tag of the format. -/
def newFormatting (format : InlineFormatType) (children : List DomNode) :
    ContainerNode :=
  .mk format.tag (ContainerNodeKind.formatting format) Option.none children
    DomHandle.newUnset

/-- ContainerNode::new_formatting_from_tag (container_node.rs lines
72-85): a formatting container that keeps the supplied tag as its name;
none when the tag is not a recognised format. -/
def newFormattingFromTag (format : List Char) (children : List DomNode) :
    Option ContainerNode :=
  (InlineFormatType.tryFromTag format).map fun f =>
    .mk format (ContainerNodeKind.formatting f) Option.none children
      DomHandle.newUnset

/-- ContainerNode::append_child (container_node.rs lines 120-128).
Returns none where the source asserts (unset handle). -/
def appendChild (c : ContainerNode) (child : DomNode) :
    Option (ContainerNode × DomHandle) :=
  match c with
  | .mk name kind attrs children h =>
    if h.isSet then
      let childHandle := h.childOf children.length
      some (.mk name kind attrs
        (children ++ [setHandleNode child childHandle]) h, childHandle)
    else Option.none

/-- ContainerNode::remove_child (container_node.rs lines 130-142): remove
the child at index, then re-handle every following child.  Returns none
where the source asserts (unset handle or index out of range). -/
def removeChild (c : ContainerNode) (index : Nat) :
    Option (ContainerNode × DomNode) :=
  match c with
  | .mk name kind attrs children h =>
    if h.isSet ∧ index < children.length then
      let ret := children.get? index
      let rest := children.take index ++ children.drop (index + 1)
      let newChildren :=
        rest.take index ++ setHandleChildren h index (rest.drop index)
      ret.map fun r => (.mk name kind attrs newChildren h, r)
    else Option.none

/-- ContainerNode::insert_child (container_node.rs lines 179-189): insert
the node at index, then re-handle every child from index on.  Returns
none where the source asserts (unset handle or index past the end). -/
def insertChild (c : ContainerNode) (index : Nat) (node : DomNode) :
    Option ContainerNode :=
  match c with
  | .mk name kind attrs children h =>
    if h.isSet ∧ index ≤ children.length then
      let inserted := children.take index ++ node :: children.drop index
      let newChildren :=
        inserted.take index ++ setHandleChildren h index (inserted.drop index)
      some (.mk name kind attrs newChildren h)
    else Option.none

/-- ContainerNode::replace_child (container_node.rs lines 144-169): remove
the child at index, insert the supplied nodes there handling each as it
goes in, then re-handle everything after them.  The returned list holds
the handles the trailing loop produced. -/
def replaceChild (c : ContainerNode) (index : Nat) (nodes : List DomNode) :
    Option (ContainerNode × List DomHandle) :=
  match c with
  | .mk name kind attrs children h =>
    if h.isSet ∧ index < children.length then
      let rest := children.take index ++ children.drop (index + 1)
      let prefixPart := rest.take index
      let suffixPart := rest.drop index
      let newChildren :=
        prefixPart ++ setHandleChildren h index nodes ++
          setHandleChildren h (index + nodes.length) suffixPart
      let handles := (List.range suffixPart.length).map
        (fun k => h.childOf (index + nodes.length + k))
      some (.mk name kind attrs newChildren h, handles)
    else Option.none

end ContainerNode

/-! ## The handle invariant (spec invariant I2)

Every child's stored handle equals its parent's handle extended by the
child's index in the children vector, recursively down the subtree. -/

mutual

/-- The node's stored handle is h and its subtree satisfies the handle
invariant below h. -/
def validAtNode : DomHandle → DomNode → Bool
  | h, .container c => validAtContainer h c
  | h, .text t => t.handle == h
  | h, .lineBreak hdl => hdl == h

def validAtContainer : DomHandle → ContainerNode → Bool
  | h, .mk _ _ _ children hdl => hdl == h && validChildrenAt h 0 children

/-- Child number i of a node with handle h must be valid at
h.child_handle(i), and so on along the list. -/
def validChildrenAt : DomHandle → Nat → List DomNode → Bool
  | _, _, [] => true
  | h, i, c :: cs => validAtNode (h.childOf i) c && validChildrenAt h (i + 1) cs

end

/-- The children of a container are correctly handled relative to its own
stored handle, recursively. -/
def ContainerNode.selfConsistent (c : ContainerNode) : Bool :=
  validChildrenAt c.handle 0 c.children

/-! ## HTML serialization (dom/nodes/text_node.rs fmt_html,
dom/nodes/container_node.rs fmt_html) -/

/-- html_escape::encode_text, used by TextNode::fmt_html: escape the three
text entities ampersand, less-than and greater-than. -/
def escapeChar (c : Char) : List Char :=
  if c = '&' then "&amp;".toList
  else if c = '<' then "&lt;".toList
  else if c = '>' then "&gt;".toList
  else [c]

def htmlEscape (l : List Char) : List Char :=
  l.flatMap escapeChar

/-- The replace of every pair of spaces by a pair of no-break spaces in
TextNode::fmt_html: str::replace scans left to right without overlap. -/
def replaceTwoSpaces : List Char → List Char
  | ' ' :: ' ' :: rest => nbspChar :: nbspChar :: replaceTwoSpaces rest
  | c :: rest => c :: replaceTwoSpaces rest
  | [] => []

/-- TextNode::fmt_html (text_node.rs lines 172-198): escape the data,
replace space pairs by no-break space pairs, and if this is the last node
in its parent and the result ends in a space, replace that final space
with a no-break space.  The function appends to the output buffer; we
return the appended chunk. -/
def fmtHtmlTextNode (t : TextNode) (isLastNodeInParent : Bool) : List Char :=
  let escaped := replaceTwoSpaces (htmlEscape t.data)
  if isLastNodeInParent && (escaped.getLast? == some ' ') then
    escaped.dropLast ++ [nbspChar]
  else
    escaped

/-- The attribute section written by ContainerNode::fmt_html: for each
attribute a space, the name, an equals sign and the quoted value. -/
def fmtAttrs : Option (List (List Char × List Char)) → List Char
  | Option.none => []
  | some attrs => attrs.flatMap fun av =>
      ' ' :: av.1 ++ '=' :: '"' :: av.2 ++ ['"']

mutual

/-- DomNode::fmt_html, dispatching on the variant with the
is-last-node-in-parent flag computed by the container loop.  The LineBreak
case lives in code outside the given sources.  Modelled from the spec:
the produced dialect uses the br tag for a hard break. -/
def fmtHtmlNode : DomNode → Bool → List Char
  | .container c, _ => fmtHtmlContainer c
  | .text t, isLast => fmtHtmlTextNode t isLast
  | .lineBreak _, _ => "<br>".toList

/-- ContainerNode::fmt_html (container_node.rs lines 283-325): write the
opening tag with attributes unless the stored name is empty, the children
each with its is-last flag, then the closing tag. -/
def fmtHtmlContainer : ContainerNode → List Char
  | .mk name _ attrs children _ =>
    (if name.isEmpty then [] else '<' :: (name ++ fmtAttrs attrs) ++ ['>'])
      ++ fmtHtmlChildren children
      ++ (if name.isEmpty then [] else '<' :: '/' :: name ++ ['>'])

/-- The children loop of ContainerNode::fmt_html: is_last is true exactly
for the final child. -/
def fmtHtmlChildren : List DomNode → List Char
  | [] => []
  | [c] => fmtHtmlNode c true
  | c :: cs => fmtHtmlNode c false ++ fmtHtmlChildren cs

end

/-! ## The document (the Dom struct, not among the given sources) -/

/-- Modelled from the spec: the Dom owns a root Generic container with
handle root and empty name, so serialization emits only its children. -/
structure Dom where
  document : ContainerNode

/-- Modelled from the spec: Dom::to_html serializes the root container. -/
def Dom.toHtml (d : Dom) : List Char :=
  fmtHtmlContainer d.document

/-- Modelled from the spec: Dom::text_len, the total text length. -/
def Dom.textLen (d : Dom) : Nat :=
  textLenContainer d.document

/-- Convenience constructor for a document root: a Generic container with
empty name and handle root, holding the given children, each correctly
handled (spec invariant I1). -/
def mkDocument (children : List DomNode) : Dom :=
  ⟨setHandleContainer
    (.mk [] ContainerNodeKind.generic Option.none children DomHandle.newUnset)
    (DomHandle.fromRaw [])⟩

/-! ## Dom lookup and mutation

The Dom struct itself is not among the given sources; lookup and
path-directed update are modelled from the spec (section 4.1). -/

/-- Replace element i of a list by f applied to it (Vec index update). -/
def modifyIdx : List α → Nat → (α → α) → List α
  | [], _, _ => []
  | a :: l, 0, f => f a :: l
  | a :: l, i + 1, f => a :: modifyIdx l i f

/-- Modelled from the spec: Dom::lookup_node follows the handle path by
child indices; none where the source panics on a dangling handle. -/
def lookupNodeIn : DomNode → List Nat → Option DomNode
  | n, [] => some n
  | .container c, i :: rest => (c.children.get? i).bind (fun ch => lookupNodeIn ch rest)
  | _, _ :: _ => Option.none

def Dom.lookupNode (d : Dom) (h : DomHandle) : Option DomNode :=
  h.path.bind (lookupNodeIn (.container d.document))

/-- Modelled from the spec: Dom::lookup_node_mut followed by a mutation,
expressed as a path-directed functional update; none where the source
panics on a dangling handle. -/
def updateNodeIn : DomNode → List Nat → (DomNode → Option DomNode) → Option DomNode
  | n, [], f => f n
  | .container (.mk name kind attrs children hdl), i :: rest, f =>
      if _ : i < children.length then
        (updateNodeIn children[i] rest f).map fun ch =>
          .container (.mk name kind attrs (modifyIdx children i (fun _ => ch)) hdl)
      else Option.none
  | _, _ :: _, _ => Option.none

def Dom.updateNode (d : Dom) (h : DomHandle) (f : DomNode → Option DomNode) :
    Option Dom :=
  match h.path with
  | Option.none => Option.none
  | some p =>
    (updateNodeIn (.container d.document) p f).bind fun n =>
      match n with
      | .container c => some ⟨c⟩
      | _ => Option.none

/-! ## The range resolver (dom/range.rs plus the resolver itself, which is
not among the given sources and is modelled from the spec, section 4.2) -/

/-- struct DomLocation (range.rs lines 50-58). -/
structure DomLocation where
  nodeHandle : DomHandle
  position : Nat
  startOffset : Nat
  endOffset : Nat
  length : Nat
  isLeaf : Bool
deriving DecidableEq

namespace DomLocation

/-- DomLocation::is_start (range.rs lines 96-99). -/
def isStart (l : DomLocation) : Bool := l.endOffset == l.length

/-- DomLocation::is_end (range.rs lines 101-104). -/
def isEnd (l : DomLocation) : Bool := l.startOffset == 0

/-- DomLocation::is_covered (range.rs lines 106-109). -/
def isCovered (l : DomLocation) : Bool := l.isStart && l.isEnd

end DomLocation

/-- Modelled from the spec: a node at absolute position pos of length len
is visited when its interval overlaps the selection, and for a cursor when
the cursor falls inside or on the boundary of the interval. -/
def overlapsSelection (pos len s e : Nat) : Bool :=
  if s == e then pos ≤ s && s ≤ pos + len
  else s < pos + len && pos < e

/-- Modelled from the spec: the location recorded for a visited node, with
start_offset as the clamped difference of start and position (Nat
subtraction is the max with 0 of the spec) and end_offset clamped to the
node length. -/
def mkLocation (h : DomHandle) (pos len s e : Nat) (leaf : Bool) :
    DomLocation :=
  ⟨h, pos, min (s - pos) len, min (e - pos) len, len, leaf⟩

mutual

/-- Modelled from the spec: the in-order walk of the range resolver.  A
visited container contributes its own location followed by the locations
of its children. -/
def walkNode (s e : Nat) (n : DomNode) (pos : Nat) : List DomLocation :=
  match n with
  | .text t =>
      if overlapsSelection pos t.data.length s e then
        [mkLocation t.handle pos t.data.length s e true]
      else []
  | .lineBreak h =>
      if overlapsSelection pos 1 s e then [mkLocation h pos 1 s e true]
      else []
  | .container (.mk name kind attrs children hdl) =>
      let len := textLenContainer (.mk name kind attrs children hdl)
      if overlapsSelection pos len s e then
        mkLocation hdl pos len s e false :: walkChildren s e children pos
      else []

def walkChildren (s e : Nat) : List DomNode → Nat → List DomLocation
  | [], _ => []
  | c :: cs, pos => walkNode s e c pos ++ walkChildren s e cs (pos + textLenNode c)

end

/-- The Range produced for delete_text.rs, which reads locations, start()
and end() from it.  Modelled from the spec: start and end are the safe
selection values the resolver was called with. -/
structure RangeS where
  locations : List DomLocation
  rStart : Nat
  rEnd : Nat

/-- Modelled from the spec: Dom::find_range as used by delete_text.rs. -/
def Dom.findRangeS (d : Dom) (s e : Nat) : RangeS :=
  ⟨walkChildren s e d.document.children 0, s, e⟩

/-- enum Range (dom/range.rs lines 18-28): SameNode when the selection
falls inside one leaf, MultipleNodes otherwise, NoNode for an empty Dom.
The SameNode variant remembers the original start and end so it can be
recreated as a MultipleNodes range (range.rs lines 43-47). -/
inductive Range where
  | sameNode (nodeHandle : DomHandle) (startOffset endOffset : Nat)
      (originalStart originalEnd : Nat)
  | multipleNodes (locations : List DomLocation)
      (originalStart originalEnd : Nat)
  | noNode

/-- Modelled from the spec: Dom::find_range as used by replace_text.rs and
format.rs.  NoNode when the document holds no nodes at all; SameNode when
exactly one leaf is visited; MultipleNodes otherwise. -/
def Dom.findRange (d : Dom) (s e : Nat) : Range :=
  if d.document.children.isEmpty then Range.noNode
  else
    let locs := walkChildren s e d.document.children 0
    match locs.filter (fun l => l.isLeaf) with
    | [leaf] => Range.sameNode leaf.nodeHandle leaf.startOffset leaf.endOffset s e
    | _ => Range.multipleNodes locs s e

/-- Modelled from the spec: Dom::convert_same_node_range_to_multi re-runs
the resolver on the remembered original start and end. -/
def Dom.convertSameNodeRangeToMulti (d : Dom) (originalStart originalEnd : Nat) :
    List DomLocation :=
  walkChildren originalStart originalEnd d.document.children 0

/-- The leaves of a range: its leaf locations (Range::leaves). -/
def leavesOf (locations : List DomLocation) : List DomLocation :=
  locations.filter (fun l => l.isLeaf)

/-! ## Composer state, history and updates (composer_model/base.rs; the
history operations live outside the given sources and are modelled from
the spec, section 4.6) -/

/-- struct ComposerState: dom, selection and pending toggled formats.
Location values are signed (isize) in the source, hence Int. -/
structure ComposerState where
  dom : Dom
  start : Int
  endPos : Int
  toggledFormatTypes : List InlineFormatType

/-- struct ComposerModel (base.rs lines 26-42), without the action_states
map, which no claim settled here observes. -/
structure ComposerModel where
  state : ComposerState
  previousStates : List ComposerState
  nextStates : List ComposerState

/-- enum ComposerUpdate in its text_update part: Keep or ReplaceAll with
the serialized HTML and the selection.  The menu_state part is omitted;
no claim settled here observes it. -/
inductive ComposerUpdate where
  | keep
  | replaceAll (html : List Char) (start endPos : Int)
deriving DecidableEq

/-- ComposerModel::create_update_replace_all (base.rs lines 142-149):
replace-all with the serialized dom and current selection. -/
def ComposerModel.createUpdateReplaceAll (m : ComposerModel) : ComposerUpdate :=
  ComposerUpdate.replaceAll m.state.dom.toHtml m.state.start m.state.endPos

/-- Modelled from the spec: the safe selection is the ordered pair of the
selection endpoints, as unsigned code-unit offsets. -/
def ComposerModel.safeSelection (m : ComposerModel) : Nat × Nat :=
  ((min m.state.start m.state.endPos).toNat,
   (max m.state.start m.state.endPos).toNat)

/-- Modelled from the spec: every mutating command first pushes the prior
state onto the undo stack and clears the redo stack. -/
def ComposerModel.pushStateToHistory (m : ComposerModel) : ComposerModel :=
  { m with previousStates := m.state :: m.previousStates, nextStates := [] }

/-- Modelled from the spec: undo pops from the undo stack, pushes the
current state onto the redo stack and installs the popped state. -/
def ComposerModel.undo (m : ComposerModel) : ComposerModel :=
  match m.previousStates with
  | [] => m
  | p :: rest =>
    { state := p, previousStates := rest, nextStates := m.state :: m.nextStates }

/-- Modelled from the spec: redo is symmetric to undo. -/
def ComposerModel.redo (m : ComposerModel) : ComposerModel :=
  match m.nextStates with
  | [] => m
  | n :: rest =>
    { state := n, previousStates := m.state :: m.previousStates, nextStates := rest }

/-! ## Deleting nodes (composer_model/delete_text.rs lines 462-609) -/

/-- starts_with (delete_text.rs lines 550-565): a handle path starts with
another when it is at least as long and agrees on every common element. -/
def startsWithPath (subject object : List Nat) : Bool :=
  decide (object.length ≤ subject.length) &&
    (subject.zip object).all (fun q => q.1 == q.2)

/-- fn starts_with on handles; both handles are set wherever the source
calls it (raw() panics otherwise). -/
def handleStartsWith (subject object : DomHandle) : Bool :=
  match subject.path, object.path with
  | some s, some o => startsWithPath s o
  | _, _ => false

/-- adjust_handles_for_delete (delete_text.rs lines 567-609): walk the
accumulated handles dropping descendants of the deleted handle and
shifting later siblings down by one.  none where the source panics:
an unset or root deleted handle, an unset accumulated handle, or an
accumulated handle that is exactly the parent (index out of bounds). -/
def adjustHandles (pp dp : List Nat) (deletedIndex : Nat) :
    List DomHandle → Option (List DomHandle)
  | [] => some []
  | h :: hs => do
    let rest ← adjustHandles pp dp deletedIndex hs
    match h.path with
    | Option.none => Option.none
    | some hp =>
      if startsWithPath hp dp then
        some rest
      else if startsWithPath hp pp then
        match hp.get? pp.length with
        | Option.none => Option.none
        | some childIndex =>
          let adjustedIndex :=
            if childIndex > deletedIndex then childIndex - 1 else childIndex
          some (⟨some ((pp ++ [adjustedIndex]) ++ hp.drop dp.length)⟩ :: rest)
      else
        some (h :: rest)

def adjustHandlesForDelete (handles : List DomHandle) (deleted : DomHandle) :
    Option (List DomHandle) :=
  match deleted.path with
  | Option.none => Option.none
  | some [] => Option.none
  | some dp =>
    (dp.getLast?).bind fun deletedIndex =>
      adjustHandles dp.dropLast dp deletedIndex handles

/-- The body of the for loop in delete_nodes: remove each queued node from
its parent, adjust the handles queued for the next round, and queue the
parent when it became empty. -/
def deleteOneRound (d : Dom) (toDelete newToDelete : List DomHandle) :
    Option (Dom × List DomHandle) :=
  match toDelete with
  | [] => some (d, newToDelete)
  | handle :: rest => do
    let p ← handle.path
    let childIndex ← p.getLast?
    let parentHandle : DomHandle := ⟨some p.dropLast⟩
    let d' ← d.updateNode parentHandle (fun n =>
      match n with
      | .container c => (c.removeChild childIndex).map (fun r => DomNode.container r.1)
      | _ => Option.none)
    let adjusted ← adjustHandlesForDelete newToDelete handle
    let parentNode ← d'.lookupNode parentHandle
    let newToDelete' ←
      match parentNode with
      | .container c =>
        some (if c.children.isEmpty then adjusted ++ [c.handle] else adjusted)
      | _ => Option.none
    deleteOneRound d' rest newToDelete'

/-- The while loop of delete_nodes, bounded by fuel.  The source loop
terminates because every handle queued for the next round is the handle
of a strict ancestor of a node removed in the current round, so the
maximal handle length plus one bounds the number of rounds; the caller
passes exactly that bound, making the out-of-fuel arm unreachable. -/
def deleteNodesLoop : Nat → Dom → List DomHandle → Option Dom
  | 0, d, toDelete => if toDelete.isEmpty then some d else Option.none
  | fuel + 1, d, toDelete =>
    if toDelete.isEmpty then some d
    else do
      let (d', newToDelete) ← deleteOneRound d toDelete []
      deleteNodesLoop fuel d' newToDelete

/-- delete_nodes (delete_text.rs lines 462-485): delete in reverse order,
repeating so that containers that became empty are themselves deleted. -/
def Dom.deleteNodes (d : Dom) (toDelete : List DomHandle) : Option Dom :=
  deleteNodesLoop
    ((toDelete.map (fun h => (h.path.getD []).length)).foldr max 0 + 1)
    d toDelete.reverse

/-! ## Text replacement (composer_model/replace_text.rs) -/

/-- Merge adjacent sibling text nodes, keeping the handle of the first of
each merged pair. -/
def mergeAdjacentTexts : List DomNode → List DomNode
  | [] => []
  | n :: rest =>
    match mergeAdjacentTexts rest, n with
    | .text t2 :: rest', .text t1 =>
        .text ⟨t1.data ++ t2.data, t1.handle⟩ :: rest'
    | rest', _ => n :: rest'

/-- Modelled from the spec: join_nodes merges the text nodes adjacent at
the cut after a multi-leaf replacement (normalization rule b of section
4.1).  In every document exercised in this file the affected siblings are
direct children of the root, so the merge is modelled on the root's
children, re-handling them afterwards. -/
def Dom.joinNodes (d : Dom) : Dom :=
  match d.document with
  | .mk name kind attrs children hdl =>
    ⟨setHandleContainer (.mk name kind attrs (mergeAdjacentTexts children) hdl) hdl⟩

/-- The per-location walk of replace_in_text_nodes (replace_text.rs lines
176-254), threading the dom, the first-text-node flag and the to_add and
to_delete accumulators.  none where the source panics (range at the start
of a line break, dangling handle). -/
def replaceInTextNodesGo (newText : List Char) (start' end' : Nat) :
    Dom → List DomLocation → Bool → List (DomHandle × Nat × DomNode) →
    List DomHandle →
    Option (Dom × List (DomHandle × Nat × DomNode) × List DomHandle)
  | d, [], _, toAdd, toDelete => some (d, toAdd, toDelete)
  | d, loc :: rest, first, toAdd, toDelete => do
    let node ← d.lookupNode loc.nodeHandle
    match node with
    | .container _ =>
        replaceInTextNodesGo newText start' end' d rest first toAdd toDelete
    | .lineBreak _ => do
        let toDelete' ←
          if loc.startOffset == 0 && loc.endOffset == 1 then
            some (toDelete ++ [loc.nodeHandle])
          else if loc.startOffset == 1 && loc.endOffset == 1 then some toDelete
          else Option.none
        let toAdd' ←
          if start' ≥ loc.position && end' == loc.position + 1 then do
            let p ← loc.nodeHandle.path
            let idx ← p.getLast?
            some (toAdd ++ [(⟨some p.dropLast⟩, idx + 1, DomNode.newText newText)])
          else some toAdd
        replaceInTextNodesGo newText start' end' d rest first toAdd' toDelete'
    | .text t =>
        if loc.startOffset == 0 && loc.endOffset == t.data.length && !first then
          replaceInTextNodesGo newText start' end' d rest false toAdd
            (toDelete ++ [loc.nodeHandle])
        else do
          let newData := t.data.take loc.startOffset ++
            (if first then newText else []) ++ t.data.drop loc.endOffset
          let d' ← d.updateNode loc.nodeHandle (fun n =>
            match n with
            | .text t0 => some (.text { t0 with data := newData })
            | _ => Option.none)
          replaceInTextNodesGo newText start' end' d' rest false toAdd toDelete

def Dom.replaceInTextNodes (d : Dom) (locations : List DomLocation)
    (start' end' : Nat) (newText : List Char) :
    Option (Dom × List (DomHandle × Nat × DomNode) × List DomHandle) :=
  replaceInTextNodesGo newText start' end' d locations true [] []

/-- The insertion loop of replace_multiple_nodes: apply the queued
insertions in reverse order through insert_child. -/
def applyToAdd : Dom → List (DomHandle × Nat × DomNode) → Option Dom
  | d, [] => some d
  | d, (parentHandle, idx, node) :: rest => do
    let d' ← d.updateNode parentHandle (fun n =>
      match n with
      | .container parent => (parent.insertChild idx node).map DomNode.container
      | _ => Option.none)
    applyToAdd d' rest

/-- replace_multiple_nodes (replace_text.rs lines 127-165): compute the
edits, apply insertions in reverse, delete, and when the range covered
more than one leaf join the two sides of the cut. -/
def Dom.replaceMultipleNodes (d : Dom) (locations : List DomLocation)
    (rangeStart rangeEnd : Nat) (newText : List Char) : Option Dom := do
  let (d1, toAdd, toDelete) ←
    d.replaceInTextNodes locations rangeStart rangeEnd newText
  let d2 ← applyToAdd d1 toAdd.reverse
  let d3 ← d2.deleteNodes toDelete
  if (leavesOf locations).length > 1 then some d3.joinNodes else some d3

/-- do_replace_text_in (replace_text.rs lines 95-125): dispatch on the
range, with a SameNode range first converted to a multi range; in the
NoNode case append a fresh text node and reset start to 0.  Afterwards the
selection is set, collapsed, to start plus the inserted length, and a
replace-all update is returned. -/
def ComposerModel.doReplaceTextIn (m : ComposerModel) (newText : List Char)
    (start' end' : Nat) : Option (ComposerModel × ComposerUpdate) :=
  let len := newText.length
  let step : Option (Dom × Nat) :=
    match m.state.dom.findRange start' end' with
    | Range.sameNode _ _ _ os oe =>
        (m.state.dom.replaceMultipleNodes
          (m.state.dom.convertSameNodeRangeToMulti os oe) start' end' newText).map
          (fun dom' => (dom', start'))
    | Range.multipleNodes locs _ _ =>
        (m.state.dom.replaceMultipleNodes locs start' end' newText).map
          (fun dom' => (dom', start'))
    | Range.noNode =>
        (m.state.dom.document.appendChild (DomNode.newText newText)).map
          (fun r => (⟨r.1⟩, 0))
  step.map fun p =>
    let st := { m.state with
                dom := p.1,
                start := ((p.2 + len : Nat) : Int),
                endPos := ((p.2 + len : Nat) : Int) }
    let m' := { m with state := st }
    (m', m'.createUpdateReplaceAll)

/-- replace_text_in (replace_text.rs lines 33-42): store the current
state in the history, then do the replacement. -/
def ComposerModel.replaceTextIn (m : ComposerModel) (newText : List Char)
    (start' end' : Nat) : Option (ComposerModel × ComposerUpdate) :=
  m.pushStateToHistory.doReplaceTextIn newText start' end'

/-- delete_in (delete_text.rs lines 71-75): store the history, set the
selection end to start, and replace with the empty string. -/
def ComposerModel.deleteIn (m : ComposerModel) (start' end' : Nat) :
    Option (ComposerModel × ComposerUpdate) :=
  let m1 := m.pushStateToHistory
  let m2 := { m1 with state := { m1.state with endPos := (start' : Int) } }
  m2.doReplaceTextIn [] start' end'

/-! ## Word-granularity deletion (composer_model/delete_text.rs) -/

/-- enum Direction (delete_text.rs lines 30-34). -/
inductive Direction where
  | forwards
  | backwards
deriving DecidableEq

/-- Direction::increment (delete_text.rs lines 37-42): moving one step in
the direction of travel.  For backwards the source computes index - 1 on
usize; the callers only do so with a positive index. -/
def Direction.increment (dir : Direction) (index : Nat) : Nat :=
  match dir with
  | .backwards => index - 1
  | .forwards => index + 1

/-- ComposerModel::get_char_type_at (delete_text.rs lines 243-289):
classify the character next to the cursor in the direction of travel,
reading the first leaf of the current range.  The classification logic is
the same as get_char_type, written out inline in the source. -/
def ComposerModel.getCharTypeAt (m : ComposerModel) (direction : Direction) :
    CharType :=
  let s := m.safeSelection.1
  let e := m.safeSelection.2
  let range := m.state.dom.findRangeS s e
  match range.locations.find? (fun l => l.isLeaf) with
  | Option.none => CharType.none
  | some leaf =>
    match m.state.dom.lookupNode leaf.nodeHandle with
    | some (.container _) => CharType.other
    | some (.text t) =>
        let n := match direction with
          | .forwards => leaf.startOffset
          | .backwards => leaf.startOffset - 1
        getCharType (t.data.get? n)
    | some (.lineBreak _) => CharType.newline
    | Option.none => CharType.none

/-- check_condition inside get_end_index_of_run (delete_text.rs lines
356-372): keep scanning while the character class stays the one at the
start, no newline was hit, and the index stays within the node in the
direction of travel. -/
def checkCondition (index length : Nat) (startType currentType : CharType)
    (stoppedAtNewline : Bool) (dir : Direction) : Bool :=
  let base := currentType == startType && !stoppedAtNewline
  match dir with
  | .forwards => base && decide (index < length)
  | .backwards => base && decide (index > 0)

/-- The while loop of get_end_index_of_run (delete_text.rs lines 374-396):
step the index, count the offset (twice when the scan reaches index 0 in
the same class), track newlines.  The loop moves the index monotonically:
backwards it runs while the index is positive, stepping it down, so at
most currentIndex iterations; forwards it runs while the index is below
length, stepping it up, so at most length - currentIndex iterations.  The
fuel passed by the caller, currentIndex + length + 1, therefore exceeds
the number of iterations and the out-of-fuel arm is unreachable. -/
def scanRun (fuel : Nat) (dir : Direction) (content : List Char)
    (length : Nat) (startType : CharType) (currentIndex offset : Nat)
    (currentType : CharType) (stoppedAtNewline wouldHitEnd : Bool) :
    Nat × Bool × Bool :=
  match fuel with
  | 0 => (offset, stoppedAtNewline, wouldHitEnd)
  | fuel + 1 =>
    if checkCondition currentIndex length startType currentType
        stoppedAtNewline dir then
      let ci := dir.increment currentIndex
      let ct := getCharType (content.get? ci)
      let san := if ct == CharType.newline then true else stoppedAtNewline
      if ct == startType && ci == 0 then
        scanRun fuel dir content length startType ci (offset + 2) ct san true
      else
        scanRun fuel dir content length startType ci (offset + 1) ct san
          wouldHitEnd
    else
      (offset, stoppedAtNewline, wouldHitEnd)

/-- ComposerModel::get_end_index_of_run (delete_text.rs lines 309-460):
find where the current run ends and whether the scan stopped at a
newline.  The start argument is ignored by the source, which recomputes
the start index from the first leaf of the current range. -/
def ComposerModel.getEndIndexOfRun (m : ComposerModel) (_start : Nat)
    (direction : Direction) : Nat × Bool :=
  let s := m.safeSelection.1
  let e := m.safeSelection.2
  let range := m.state.dom.findRangeS s e
  let c := range.rStart
  match range.locations.find? (fun l => l.isLeaf) with
  | Option.none => (1, false)
  | some leaf =>
    match m.state.dom.lookupNode leaf.nodeHandle with
    | some (.container _) => (1, false)
    | some (.lineBreak _) => (1, false)
    | Option.none => (1, false)
    | some (.text t) =>
        let startIndex := match direction with
          | .forwards => leaf.startOffset
          | .backwards => leaf.startOffset - 1
        let startType := getCharType (t.data.get? startIndex)
        let r := scanRun (startIndex + leaf.length + 1) direction t.data
          leaf.length startType startIndex 0 startType
          (startType == CharType.newline) false
        let deleteIndex := match direction with
          | .forwards => c + r.1
          | .backwards => c - r.1
        (deleteIndex, r.2.1)

/-- ComposerModel::backspace_word (delete_text.rs lines 183-240): remove a
word before the cursor.  With a selection only the selection is removed; at
position 0 nothing happens; otherwise the run before the cursor is
deleted, a whitespace run together with the run before it (or with the
newline that terminated it). -/
def ComposerModel.backspaceWord (m : ComposerModel) :
    Option (ComposerModel × ComposerUpdate) :=
  let s := m.safeSelection.1
  let e := m.safeSelection.2
  let range := m.state.dom.findRangeS s e
  if range.rStart ≠ range.rEnd then m.deleteIn s e
  else if range.rStart = 0 then some (m, ComposerUpdate.keep)
  else
    let c := range.rStart
    match m.getCharTypeAt Direction.backwards with
    | CharType.whitespace =>
        let r := m.getEndIndexOfRun (c - 1) Direction.backwards
        if r.2 then m.deleteIn (r.1 - 1) c
        else do
          let p ← m.deleteIn r.1 c
          let m1 := p.1
          let s1 := m1.safeSelection.1
          let e1 := m1.safeSelection.2
          let range1 := m1.state.dom.findRangeS s1 e1
          let c1 := range1.rStart
          let r1 := m1.getEndIndexOfRun (c1 - 1) Direction.backwards
          m1.deleteIn r1.1 c1
    | CharType.newline => m.deleteIn (c - 1) c
    | CharType.punctuation =>
        let r := m.getEndIndexOfRun (c - 1) Direction.backwards
        m.deleteIn r.1 c
    | CharType.other =>
        let r := m.getEndIndexOfRun (c - 1) Direction.backwards
        m.deleteIn r.1 c
    | CharType.none => some (m, ComposerUpdate.keep)

/-- ComposerModel::delete_word (delete_text.rs lines 101-153): remove a
word after the cursor, symmetric to backspace_word. -/
def ComposerModel.deleteWord (m : ComposerModel) :
    Option (ComposerModel × ComposerUpdate) :=
  let s := m.safeSelection.1
  let e := m.safeSelection.2
  let range := m.state.dom.findRangeS s e
  if range.rStart ≠ range.rEnd then m.deleteIn s e
  else if range.rEnd = m.state.dom.textLen then some (m, ComposerUpdate.keep)
  else
    let c := range.rStart
    match m.getCharTypeAt Direction.forwards with
    | CharType.whitespace =>
        let r := m.getEndIndexOfRun c Direction.forwards
        if r.2 then m.deleteIn c (r.1 + 2)
        else do
          let p ← m.deleteIn c r.1
          let m1 := p.1
          let s1 := m1.safeSelection.1
          let e1 := m1.safeSelection.2
          let range1 := m1.state.dom.findRangeS s1 e1
          let c1 := range1.rStart
          let r1 := m1.getEndIndexOfRun (c1 + 1) Direction.forwards
          m1.deleteIn c1 r1.1
    | CharType.newline => m.deleteIn c (c + 1)
    | CharType.punctuation =>
        let r := m.getEndIndexOfRun (c + 1) Direction.forwards
        m.deleteIn c r.1
    | CharType.other =>
        let r := m.getEndIndexOfRun (c + 1) Direction.forwards
        m.deleteIn c r.1
    | CharType.none => some (m, ComposerUpdate.keep)

/-! ## Inline formatting (composer_model/format.rs) -/

/-- enum FormatSelectionType (format.rs lines 22-26). -/
inductive FormatSelectionType where
  | extend
  | remove
deriving DecidableEq

/-- is_format_node (format.rs lines 240-249): a container whose kind is
Formatting of the requested format. -/
def isFormatNode (n : DomNode) (format : InlineFormatType) : Bool :=
  match n with
  | .container c =>
    match c.kind with
    | ContainerNodeKind.formatting k => k == format
    | _ => false
  | _ => false

/-- is_format_node applied to the node a handle points at; a dangling
handle makes the source panic in lookup_node and is unreachable for
resolver-produced handles. -/
def isFormatNodeAt (d : Dom) (h : DomHandle) (format : InlineFormatType) :
    Bool :=
  match d.lookupNode h with
  | some n => isFormatNode n format
  | Option.none => false

/-- path_contains_format_node (format.rs lines 218-238) on the raw path:
check the node, then walk up to the parent and repeat.  The source checks
the parent once before recursing on it, which yields the same result as
recursing directly. -/
def pathContainsFormatNodeAux (d : Dom) (fuel : Nat) (p : List Nat)
    (format : InlineFormatType) : Option DomHandle :=
  match fuel with
  | 0 => Option.none
  | fuel + 1 =>
    if isFormatNodeAt d ⟨some p⟩ format then some ⟨some p⟩
    else if p.isEmpty then Option.none
    else pathContainsFormatNodeAux d fuel p.dropLast format

def pathContainsFormatNode (d : Dom) (h : DomHandle)
    (format : InlineFormatType) : Option DomHandle :=
  match h.path with
  | some p => pathContainsFormatNodeAux d (p.length + 1) p format
  | Option.none => Option.none

/-- check_format_selection_type (format.rs lines 86-124): Remove when at
least one visited node carries the format and no visited leaf lacks it on
its path, Extend otherwise. -/
def checkFormatSelectionType (d : Dom) (locations : List DomLocation)
    (format : InlineFormatType) : FormatSelectionType :=
  let foundFormatLocations :=
    locations.filter (fun l => isFormatNodeAt d l.nodeHandle format)
  if foundFormatLocations.isEmpty then FormatSelectionType.extend
  else
    let nonFormattedLeafLocations := locations.filter (fun l =>
      l.isLeaf && (pathContainsFormatNode d l.nodeHandle format).isNone)
    if nonFormattedLeafLocations.length > 0 then FormatSelectionType.extend
    else FormatSelectionType.remove

/-- needs_format (format.rs lines 143-151). -/
def needsFormat (d : Dom) (loc : DomLocation) (format : InlineFormatType) :
    Bool :=
  loc.isLeaf && (pathContainsFormatNode d loc.nodeHandle format).isNone

/-- split_text_node (format.rs lines 251-265): cut a text node at the
position; the left part keeps the original handle, the right is unset.
none where the source panics on a non-text node. -/
def splitTextNode (node : DomNode) (position : Nat) :
    Option (TextNode × TextNode) :=
  match node with
  | .text t =>
    some (⟨t.data.take position, t.handle⟩, ⟨t.data.drop position, DomHandle.newUnset⟩)
  | _ => Option.none

/-- remove_empty_text_nodes (format.rs lines 267-284): gather the
index_in_parent of every empty text child, iterating in reverse, then
remove them one by one.  Indexes are read from the stored child handles as
in the source; children with unset handles are skipped where the source
would panic (unreachable on consistent documents). -/
def Dom.removeEmptyTextNodes (d : Dom) (handle : DomHandle) : Option Dom :=
  match d.lookupNode handle with
  | some (.container c) =>
    let idxs := (c.children.filterMap (fun ch =>
      match ch with
      | .text t =>
          if t.data.isEmpty then t.handle.path.bind List.getLast?
          else Option.none
      | _ => Option.none)).reverse
    d.updateNode handle (fun n =>
      match n with
      | .container c0 =>
          (idxs.foldlM (fun (cc : ContainerNode) i =>
              (cc.removeChild i).map (fun r => r.1)) c0).map
            DomNode.container
      | _ => some n)
  | _ => some d

/-- Modelled from the spec: join_format_node_with_prev merges the node at
the handle into its previous sibling when both are formatting containers
of the same kind (normalization rule c of section 4.1), re-handling the
parent's children afterwards; otherwise the document is unchanged. -/
def Dom.joinFormatNodeWithPrev (d : Dom) (h : DomHandle) : Dom :=
  match h.path with
  | Option.none => d
  | some p =>
    match p.getLast? with
    | Option.none => d
    | some idx =>
      if idx = 0 then d
      else
        let res := d.updateNode ⟨some p.dropLast⟩ (fun n =>
          match n with
          | .container (.mk name kind attrs children hdl) =>
            match children.get? (idx - 1), children.get? idx with
            | some (.container (.mk pn (ContainerNodeKind.formatting pf) pa pc _)),
              some (.container (.mk _ (ContainerNodeKind.formatting cf) _ cc _)) =>
              if pf == cf then
                let merged := DomNode.container
                  (.mk pn (ContainerNodeKind.formatting pf) pa (pc ++ cc)
                    DomHandle.newUnset)
                let newChildren :=
                  children.take (idx - 1) ++ merged :: children.drop (idx + 1)
                some (.container
                  (setHandleContainer (.mk name kind attrs newChildren hdl) hdl))
              else some n
            | _, _ => some n
          | _ => some n)
        match res with
        | some d' => d'
        | Option.none => d

/-- merge_formatting_node_with_siblings (format.rs lines 286-297): try to
join the next sibling into this node, then this node into its previous
sibling. -/
def Dom.mergeFormattingNodeWithSiblings (d : Dom) (h : DomHandle) : Dom :=
  let d1 :=
    match h.path with
    | some p =>
      if p.isEmpty then d
      else
        match d.lookupNode ⟨some p.dropLast⟩, p.getLast? with
        | some (.container c), some idx =>
          if c.children.length - idx > 1 then
            d.joinFormatNodeWithPrev ⟨some (p.dropLast ++ [idx + 1])⟩
          else d
        | _, _ => d
    | Option.none => d
  d1.joinFormatNodeWithPrev h

/-- The body of the loop of extend_format_in_multiple_nodes (format.rs
lines 153-216) for one location. -/
def extendFormatOne (d : Dom) (loc : DomLocation)
    (format : InlineFormatType) : Option Dom :=
  if needsFormat d loc format then
    match loc.nodeHandle.path with
    | Option.none => Option.none
    | some p =>
      if p.isEmpty then Option.none
      else
        let parentHandle : DomHandle := ⟨some p.dropLast⟩
        match d.lookupNode parentHandle, p.getLast? with
        | some (.container _), some index => do
          let d1 ← d.updateNode parentHandle (fun n =>
            match n with
            | .container parent => do
              let r ← parent.removeChild index
              let parent' := r.1
              let node := r.2
              if loc.isCovered then
                let formatNode :=
                  DomNode.container (ContainerNode.newFormatting format [node])
                (parent'.insertChild index formatNode).map DomNode.container
              else
                let position :=
                  if loc.isStart then loc.startOffset else loc.endOffset
                match splitTextNode node position with
                | some (orig, nw) =>
                  if loc.isStart then do
                    let fmtNew := DomNode.container
                      (ContainerNode.newFormatting format [.text nw])
                    let p1 ← parent'.insertChild index fmtNew
                    let p2 ← p1.insertChild index (.text orig)
                    some (DomNode.container p2)
                  else do
                    let origFmt := DomNode.container
                      (ContainerNode.newFormatting format [.text orig])
                    let p1 ← parent'.insertChild index (.text nw)
                    let p2 ← p1.insertChild index origFmt
                    some (DomNode.container p2)
                | Option.none => Option.none
            | _ => Option.none)
          let d2 ← d1.removeEmptyTextNodes parentHandle
          some (d2.mergeFormattingNodeWithSiblings loc.nodeHandle)
        | _, _ => some d
  else some d

/-- extend_format_in_multiple_nodes (format.rs lines 153-216): process the
locations in reverse order. -/
def extendFormatInMultipleNodes (d : Dom) (locations : List DomLocation)
    (format : InlineFormatType) : Option Dom :=
  locations.reverse.foldlM (fun dd loc => extendFormatOne dd loc format) d

/-- format_several_nodes (format.rs lines 126-141).  The Remove arm of the
source is an empty TODO block, so the document is returned unchanged. -/
def formatSeveralNodes (d : Dom) (locations : List DomLocation)
    (format : InlineFormatType) : Option Dom :=
  match checkFormatSelectionType d locations format with
  | FormatSelectionType.remove => some d
  | FormatSelectionType.extend => extendFormatInMultipleNodes d locations format

/-- Modelled from the spec: Dom::replace substitutes the node at the
handle by the given nodes inside its parent (through replace_child). -/
def Dom.replaceNode (d : Dom) (h : DomHandle) (nodes : List DomNode) :
    Option Dom :=
  match h.path with
  | Option.none => Option.none
  | some p =>
    if p.isEmpty then Option.none
    else
      match p.getLast? with
      | Option.none => Option.none
      | some idx =>
        d.updateNode ⟨some p.dropLast⟩ (fun n =>
          match n with
          | .container parent =>
              (parent.replaceChild idx nodes).map (fun r => DomNode.container r.1)
          | _ => Option.none)

/-- ComposerModel::format (format.rs lines 32-58) with format_same_node
(lines 60-84): push the history, then dispatch on the range.  none where
the source panics (formatting a non-text same-node range). -/
def ComposerModel.format (m : ComposerModel) (format : InlineFormatType) :
    Option (ComposerModel × ComposerUpdate) :=
  let m0 := m.pushStateToHistory
  let s := m0.safeSelection.1
  let e := m0.safeSelection.2
  match m0.state.dom.findRange s e with
  | Range.sameNode nh so eo _ _ => do
    let node ← m0.state.dom.lookupNode nh
    match node with
    | .text t =>
      let before := t.data.take so
      let during := (t.data.take eo).drop so
      let after := t.data.drop eo
      let newNodes := [DomNode.newText before,
        DomNode.container (ContainerNode.newFormatting format
          [DomNode.newText during]),
        DomNode.newText after]
      let d' ← m0.state.dom.replaceNode nh newNodes
      let m' := { m0 with state := { m0.state with dom := d' } }
      some (m', m'.createUpdateReplaceAll)
    | _ => Option.none
  | Range.noNode => do
    let r ← m0.state.dom.document.appendChild
      (DomNode.container (ContainerNode.newFormatting format [DomNode.newText []]))
    some ({ m0 with state := { m0.state with dom := ⟨r.1⟩ } },
      ComposerUpdate.keep)
  | Range.multipleNodes locs _ _ => do
    let d' ← formatSeveralNodes m0.state.dom locs format
    let m' := { m0 with state := { m0.state with dom := d' } }
    some (m', m'.createUpdateReplaceAll)

/-! ## Setting content (composer_model/base.rs lines 93-113) -/

/-- The outcome of dom/parser parse: Ok with a Dom, or Err with a
DomCreationError whose dom field holds the best-effort recovered Dom.  The
parser itself is outside the given sources; set_content_from_html only
consumes its result, so the result is passed in. -/
inductive ParseOutcome where
  | ok (dom : Dom)
  | err (dom : Dom)

/-- ComposerModel::set_content_from_html (base.rs lines 93-113): install
the parsed dom (on success also moving the selection to the end), clear
both history stacks, and return a replace-all update.  The menu-state part
of create_update_replace_all_with_menu_state is omitted as everywhere in
this file. -/
def ComposerModel.setContentFromHtml (m : ComposerModel)
    (parsed : ParseOutcome) : ComposerModel × ComposerUpdate :=
  match parsed with
  | ParseOutcome.ok dom =>
    let st := { m.state with
                dom := dom,
                start := (dom.textLen : Int),
                endPos := (dom.textLen : Int) }
    let m' : ComposerModel :=
      { state := st, previousStates := [], nextStates := [] }
    (m', m'.createUpdateReplaceAll)
  | ParseOutcome.err edom =>
    let st := { m.state with dom := edom }
    let m' : ComposerModel :=
      { state := st, previousStates := [], nextStates := [] }
    (m', m'.createUpdateReplaceAll)

/-! ## Concrete example inputs used by witnesses and counterexamples -/

/-- A document holding a single text node with a collapsed cursor, the
shape of the scenarios in the spec section on word deletion. -/
def singleTextModel (s : List Char) (c : Int) : ComposerModel :=
  { state := { dom := mkDocument [DomNode.newText s], start := c, endPos := c,
               toggledFormatTypes := [] },
    previousStates := [], nextStates := [] }

/-- The raw text of the top level of a document. -/
def domText (d : Dom) : List Char :=
  d.document.children.flatMap (fun n =>
    match n with
    | .text t => t.data
    | _ => [])

/-- The spec scenario S6 document: the text hello followed by three
spaces followed by world, with the cursor at the end. -/
def s6Model : ComposerModel := singleTextModel "hello   world".toList 13

/-- A document for the delete_word history scenario: the text a-space-bc
with the cursor after the first character. -/
def deleteWordModel : ComposerModel := singleTextModel "a bc".toList 1

/-- The document of the format.rs test selection_type_remove: a bold
container with the text hello, then an italic container holding a bold
container with the text wor and the trailing text ld; both bold
containers were parsed from the alias tag b, so they keep that name. -/
def c1Dom : Dom := mkDocument
  [DomNode.container (.mk "b".toList
      (ContainerNodeKind.formatting InlineFormatType.bold)
      Option.none [DomNode.newText "hello".toList] DomHandle.newUnset),
   DomNode.container (.mk "i".toList
      (ContainerNodeKind.formatting InlineFormatType.italic)
      Option.none
      [DomNode.container (.mk "b".toList
          (ContainerNodeKind.formatting InlineFormatType.bold)
          Option.none [DomNode.newText "wor".toList] DomHandle.newUnset),
       DomNode.newText "ld".toList] DomHandle.newUnset)]

/-- The c1Dom document with the selection 3 to 8, covering the tail of
hello and all of wor: every selected leaf sits inside a bold ancestor. -/
def c1Model : ComposerModel :=
  { state := { dom := c1Dom, start := 3, endPos := 8, toggledFormatTypes := [] },
    previousStates := [], nextStates := [] }

/-- The locations the resolver produces for the selection 3 to 8 on
c1Dom. -/
def c1Locs : List DomLocation := walkChildren 3 8 c1Dom.document.children 0

/-- A formatting container as the parser builds it from the alias tag b:
new_formatting_from_tag keeps the tag as the stored name. -/
def aliasBoldContainer : ContainerNode :=
  .mk "b".toList (ContainerNodeKind.formatting InlineFormatType.bold)
    Option.none [DomNode.newText ['x']] DomHandle.newUnset

/-- A text node whose data ends in a space, used against claim C4. -/
def trailingSpaceText : TextNode := ⟨['a', ' '], DomHandle.fromRaw [0]⟩

/-- The container of the container_node.rs handle tests: a div with
handle four-five-four holding two text children. -/
def c9Container : ContainerNode :=
  setHandleContainer
    (.mk "div".toList ContainerNodeKind.generic Option.none
      [DomNode.newText ['0'], DomNode.newText ['1']] DomHandle.newUnset)
    (DomHandle.fromRaw [4, 5, 4])

/-- A model with non-trivial history stacks, used for C6. -/
def historiedModel : ComposerModel :=
  { state := (singleTextModel ['x'] 1).state,
    previousStates := [(singleTextModel ['y'] 0).state],
    nextStates := [(singleTextModel ['z'] 0).state] }

/-- A recovered document as a failing parse would leave it. -/
def recoveredDom : Dom := mkDocument [DomNode.newText "recovered".toList]

/-! ## Theorems: the handle invariant under child-list mutations -/

mutual

theorem validAt_setHandleNode (n : DomNode) (h : DomHandle) :
    validAtNode h (setHandleNode n h) = true := by
  cases n with
  | container c =>
    simp only [setHandleNode, validAtNode]
    exact validAt_setHandleContainer c h
  | text t => simp [setHandleNode, validAtNode]
  | lineBreak hdl => simp [setHandleNode, validAtNode]

theorem validAt_setHandleContainer (c : ContainerNode) (h : DomHandle) :
    validAtContainer h (setHandleContainer c h) = true := by
  cases c with
  | mk name kind attrs children hdl =>
    simp only [setHandleContainer, validAtContainer, Bool.and_eq_true,
      beq_self_eq_true, true_and]
    exact validChildren_setHandleChildren h 0 children

theorem validChildren_setHandleChildren (h : DomHandle) (i : Nat)
    (l : List DomNode) :
    validChildrenAt h i (setHandleChildren h i l) = true := by
  cases l with
  | nil => simp [setHandleChildren, validChildrenAt]
  | cons c cs =>
    simp only [setHandleChildren, validChildrenAt, Bool.and_eq_true]
    exact ⟨validAt_setHandleNode c (h.childOf i),
      validChildren_setHandleChildren h (i + 1) cs⟩

end

theorem length_setHandleChildren (h : DomHandle) :
    ∀ (i : Nat) (l : List DomNode),
    (setHandleChildren h i l).length = l.length := by
  intro i l
  induction l generalizing i with
  | nil => simp [setHandleChildren]
  | cons c cs ih => simp [setHandleChildren, ih]

theorem validChildrenAt_append (h : DomHandle) (l1 l2 : List DomNode) :
    ∀ i, validChildrenAt h i (l1 ++ l2) =
      (validChildrenAt h i l1 && validChildrenAt h (i + l1.length) l2) := by
  induction l1 with
  | nil => intro i; simp [validChildrenAt]
  | cons c cs ih =>
    intro i
    simp only [List.cons_append, validChildrenAt, List.append_eq,
      ih (i + 1), List.length_cons]
    have heq : i + 1 + cs.length = i + (cs.length + 1) := by omega
    rw [heq, Bool.and_assoc]

theorem appendChild_selfConsistent (c r : ContainerNode) (child : DomNode)
    (hdl : DomHandle) (hv : c.selfConsistent = true)
    (hr : c.appendChild child = some (r, hdl)) : r.selfConsistent = true := by
  cases c with
  | mk name kind attrs children h =>
    simp only [ContainerNode.appendChild] at hr
    by_cases hset : h.isSet = true
    · simp only [hset, if_true, Option.some.injEq, Prod.mk.injEq] at hr
      obtain ⟨hr1, _⟩ := hr
      subst hr1
      simp only [ContainerNode.selfConsistent, ContainerNode.handle,
        ContainerNode.children] at hv ⊢
      rw [validChildrenAt_append, Bool.and_eq_true]
      refine ⟨hv, ?_⟩
      simp only [validChildrenAt, Bool.and_eq_true, Nat.zero_add]
      exact ⟨validAt_setHandleNode child (h.childOf children.length), trivial⟩
    · simp [hset] at hr

theorem removeChild_selfConsistent (c r : ContainerNode) (removed : DomNode)
    (index : Nat) (hv : c.selfConsistent = true)
    (hr : c.removeChild index = some (r, removed)) : r.selfConsistent = true := by
  cases c with
  | mk name kind attrs children h =>
    simp only [ContainerNode.removeChild] at hr
    by_cases hcond : h.isSet = true ∧ index < children.length
    · rw [if_pos hcond] at hr
      rw [Option.map_eq_some'] at hr
      obtain ⟨x, _, hr2⟩ := hr
      rw [Prod.mk.injEq] at hr2
      obtain ⟨hr1, _⟩ := hr2
      subst hr1
      have hAlen : (children.take index).length = index := by
        rw [List.length_take]; omega
      simp only [ContainerNode.selfConsistent, ContainerNode.handle,
        ContainerNode.children] at hv ⊢
      rw [List.take_left' hAlen, List.drop_left' hAlen]
      rw [← List.take_append_drop index children, validChildrenAt_append,
        Bool.and_eq_true] at hv
      rw [validChildrenAt_append, Bool.and_eq_true]
      refine ⟨hv.1, ?_⟩
      rw [Nat.zero_add, hAlen]
      exact validChildren_setHandleChildren h index (children.drop (index + 1))
    · rw [if_neg hcond] at hr
      exact absurd hr (by simp)

theorem insertChild_selfConsistent (c r : ContainerNode) (node : DomNode)
    (index : Nat) (hv : c.selfConsistent = true)
    (hr : c.insertChild index node = some r) : r.selfConsistent = true := by
  cases c with
  | mk name kind attrs children h =>
    simp only [ContainerNode.insertChild] at hr
    by_cases hcond : h.isSet = true ∧ index ≤ children.length
    · rw [if_pos hcond, Option.some.injEq] at hr
      subst hr
      have hAlen : (children.take index).length = index := by
        rw [List.length_take]; omega
      simp only [ContainerNode.selfConsistent, ContainerNode.handle,
        ContainerNode.children] at hv ⊢
      rw [List.take_left' hAlen, List.drop_left' hAlen]
      rw [← List.take_append_drop index children, validChildrenAt_append,
        Bool.and_eq_true] at hv
      rw [validChildrenAt_append, Bool.and_eq_true]
      refine ⟨hv.1, ?_⟩
      rw [Nat.zero_add, hAlen]
      exact validChildren_setHandleChildren h index (node :: children.drop index)
    · rw [if_neg hcond] at hr
      exact absurd hr (by simp)

theorem replaceChild_selfConsistent (c r : ContainerNode)
    (nodes : List DomNode) (handles : List DomHandle) (index : Nat)
    (hv : c.selfConsistent = true)
    (hr : c.replaceChild index nodes = some (r, handles)) :
    r.selfConsistent = true := by
  cases c with
  | mk name kind attrs children h =>
    simp only [ContainerNode.replaceChild] at hr
    by_cases hcond : h.isSet = true ∧ index < children.length
    · rw [if_pos hcond, Option.some.injEq, Prod.mk.injEq] at hr
      obtain ⟨hr1, _⟩ := hr
      subst hr1
      have hAlen : (children.take index).length = index := by
        rw [List.length_take]; omega
      simp only [ContainerNode.selfConsistent, ContainerNode.handle,
        ContainerNode.children] at hv ⊢
      rw [List.take_left' hAlen, List.drop_left' hAlen]
      rw [← List.take_append_drop index children, validChildrenAt_append,
        Bool.and_eq_true] at hv
      rw [List.append_assoc, validChildrenAt_append, Bool.and_eq_true]
      refine ⟨hv.1, ?_⟩
      rw [Nat.zero_add, hAlen, validChildrenAt_append, Bool.and_eq_true]
      refine ⟨validChildren_setHandleChildren h index nodes, ?_⟩
      rw [length_setHandleChildren]
      exact validChildren_setHandleChildren h (index + nodes.length)
        (children.drop (index + 1))
    · rw [if_neg hcond] at hr
      exact absurd hr (by simp)

/-! ## Claim theorems C10, C8, C6 -/

/-- C10: for every set, non-root DomHandle h, the handle
parent_handle().child_handle(index_in_parent()) equals h; the operations
are pure path arithmetic over the stored path and take no tree argument. -/
theorem c10_parent_child_roundtrip (h : DomHandle) (p : List Nat)
    (hset : h.path = some p) (hroot : p ≠ []) :
    (h.parentHandle.bind fun par =>
      h.indexInParent.bind fun i => par.childHandle i) = some h := by
  cases h with
  | mk path =>
    cases hset
    simp only [DomHandle.parentHandle, DomHandle.indexInParent,
      DomHandle.childHandle, List.isEmpty_eq_true]
    rw [if_neg hroot, List.getLast?_eq_getLast p hroot]
    simp only [Option.some_bind, Option.some.injEq, DomHandle.mk.injEq]
    exact List.dropLast_append_getLast hroot

/-- Witness for C10 at the concrete handle with path two-five. -/
theorem c10_witness :
    (DomHandle.fromRaw [2, 5]).path = some [2, 5] ∧ ([2, 5] : List Nat) ≠ [] ∧
    ((DomHandle.fromRaw [2, 5]).parentHandle.bind fun par =>
      (DomHandle.fromRaw [2, 5]).indexInParent.bind fun i =>
        par.childHandle i) = some (DomHandle.fromRaw [2, 5]) :=
  ⟨rfl, by decide,
    c10_parent_child_roundtrip (DomHandle.fromRaw [2, 5]) [2, 5] rfl (by decide)⟩

/-- C8: the classifier used by backspace_word and delete_word
(get_char_type in delete_text.rs) takes U+00A0 to Whitespace and every
ASCII punctuation character, as well as the pound sign, to Punctuation. -/
theorem c8_char_classification :
    getCharType (some nbspChar) = CharType.whitespace ∧
    (∀ c : Char, isAsciiPunctuation c = true →
      getCharType (some c) = CharType.punctuation) ∧
    getCharType (some poundChar) = CharType.punctuation := by
  refine ⟨by decide, ?_, by decide⟩
  intro c hc
  have hv := hc
  simp only [isAsciiPunctuation, Bool.or_eq_true, Bool.and_eq_true,
    decide_eq_true_eq] at hv
  have hws : rustIsWhitespace c = false := by
    simp only [rustIsWhitespace, Bool.or_eq_false_iff, Bool.and_eq_false_iff,
      decide_eq_false_iff_not, beq_eq_false_iff_ne, ne_eq]
    omega
  simp [getCharType, hws, hc]

/-- Witness for C8 at the exclamation mark. -/
theorem c8_witness :
    isAsciiPunctuation '!' = true ∧
    getCharType (some '!') = CharType.punctuation :=
  ⟨by decide, c8_char_classification.2.1 '!' (by decide)⟩

/-- C6: set_content_from_html on a failing parse installs the parser's
best-effort recovered dom, clears both history stacks, and still returns
a replace-all update whose html serializes that recovered state (with the
selection left as it was). -/
theorem c6_set_content_parse_error (m : ComposerModel) (edom : Dom) :
    (m.setContentFromHtml (ParseOutcome.err edom)).1.state.dom = edom ∧
    (m.setContentFromHtml (ParseOutcome.err edom)).1.previousStates = [] ∧
    (m.setContentFromHtml (ParseOutcome.err edom)).1.nextStates = [] ∧
    (m.setContentFromHtml (ParseOutcome.err edom)).2 =
      ComposerUpdate.replaceAll edom.toHtml m.state.start m.state.endPos := by
  exact ⟨rfl, rfl, rfl, rfl⟩

/-- Witness for C6 on a model with non-empty history stacks. -/
theorem c6_witness :
    (historiedModel.setContentFromHtml (ParseOutcome.err recoveredDom)).1.state.dom
      = recoveredDom ∧
    (historiedModel.setContentFromHtml
      (ParseOutcome.err recoveredDom)).1.previousStates = [] ∧
    (historiedModel.setContentFromHtml
      (ParseOutcome.err recoveredDom)).1.nextStates = [] ∧
    (historiedModel.setContentFromHtml (ParseOutcome.err recoveredDom)).2 =
      ComposerUpdate.replaceAll recoveredDom.toHtml
        historiedModel.state.start historiedModel.state.endPos :=
  c6_set_content_parse_error historiedModel recoveredDom

/-! ## Claim theorem C7 -/

theorem textLen_of_noChildren (d : Dom)
    (h : d.document.children.isEmpty = true) : d.textLen = 0 := by
  cases d with
  | mk doc =>
    cases doc with
    | mk name kind attrs children hdl =>
      simp only [ContainerNode.children, List.isEmpty_eq_true] at h
      subst h
      rfl

theorem findRange_noNode (d : Dom) (s e : Nat)
    (h : d.findRange s e = Range.noNode) :
    d.document.children.isEmpty = true := by
  by_cases he : d.document.children.isEmpty = true
  · exact he
  · exfalso
    rw [Dom.findRange, if_neg he] at h
    dsimp only [] at h
    split at h <;> simp_all

/-- C7: replace_text_in with start at most end at most the total text
length leaves the selection collapsed at start plus the length of the
inserted text, whenever the operation completes (none models a source
panic, where there is no after-state). -/
theorem c7_replace_text_in_selection (m : ComposerModel)
    (newText : List Char) (s e : Nat) (h1 : s ≤ e)
    (h2 : e ≤ m.state.dom.textLen) :
    (m.replaceTextIn newText s e).all (fun r =>
      r.1.state.start == ((s + newText.length : Nat) : Int) &&
      r.1.state.endPos == r.1.state.start) = true := by
  rw [ComposerModel.replaceTextIn, ComposerModel.doReplaceTextIn]
  have hdom : m.pushStateToHistory.state.dom = m.state.dom := rfl
  rw [hdom]
  cases hr : m.state.dom.findRange s e with
  | sameNode nh so eo os oe =>
    cases hstep : m.state.dom.replaceMultipleNodes
        (m.state.dom.convertSameNodeRangeToMulti os oe) s e newText with
    | none => simp [hstep]
    | some dom' => simp [hstep]
  | multipleNodes locs os oe =>
    cases hstep : m.state.dom.replaceMultipleNodes locs s e newText with
    | none => simp [hstep]
    | some dom' => simp [hstep]
  | noNode =>
    have hs : s = 0 := by
      have := textLen_of_noChildren _ (findRange_noNode _ _ _ hr)
      omega
    subst hs
    cases hstep : m.state.dom.document.appendChild (DomNode.newText newText) with
    | none => simp [hstep]
    | some r0 => simp [hstep]

/-- Witness for C7: a two-character document, replacing position one to
two by a single character leaves the cursor collapsed at two. -/
theorem c7_witness :
    1 ≤ 2 ∧ 2 ≤ (singleTextModel ['a', 'b'] 0).state.dom.textLen ∧
    (((singleTextModel ['a', 'b'] 0).replaceTextIn ['x'] 1 2).all (fun r =>
      r.1.state.start == ((1 + 1 : Nat) : Int) &&
      r.1.state.endPos == r.1.state.start) = true) ∧
    ((singleTextModel ['a', 'b'] 0).replaceTextIn ['x'] 1 2).isSome = true :=
  ⟨by decide, by decide,
    c7_replace_text_in_selection (singleTextModel ['a', 'b'] 0) ['x'] 1 2
      (by decide) (by decide),
    by decide⟩

/-! ## Claim theorems C3 and C2 -/

/-- Counterexample to C3: on the spec S6 document the second
backspace_word call leaves the empty document, not hello-space; the
whitespace run and the preceding word run are both deleted. -/
theorem c3_counterexample :
    (s6Model.backspaceWord.bind (fun r => r.1.backspaceWord)).map
      (fun r => domText r.1.state.dom) = some [] ∧
    "hello ".toList ≠ ([] : List Char) := by
  constructor
  · rfl
  · decide

/-- C3 as the code behaves: from hello-three-spaces-world with the cursor
at the end, the first backspace_word deletes the word run leaving
hello-three-spaces with the cursor at the end; the second deletes the
whitespace run and then the preceding word run, leaving the empty
document; the third finds the cursor at position zero and keeps the
document unchanged. -/
theorem c3_amended :
    (s6Model.backspaceWord).map
      (fun r => (domText r.1.state.dom, r.1.state.start, r.1.state.endPos)) =
      some ("hello   ".toList, 8, 8) ∧
    (s6Model.backspaceWord.bind fun r => r.1.backspaceWord).map
      (fun r => (domText r.1.state.dom, r.1.state.start, r.1.state.endPos)) =
      some ([], 0, 0) ∧
    (s6Model.backspaceWord.bind fun r => r.1.backspaceWord.bind fun r2 =>
        r2.1.backspaceWord).map
      (fun r => (domText r.1.state.dom, r.2)) =
      some ([], ComposerUpdate.keep) := by
  refine ⟨rfl, rfl, rfl⟩

/-- C2 fails on the code: delete_word on the document a-space-bc with the
cursor after the first character deletes the space and then the word,
pushing two history entries; the following undo restores the intermediate
state abc, not the pre-command state a-space-bc.  The undo-redo half of
the claim does hold on this run: redo returns to the post-command state. -/
theorem c2_delete_word_undo_divergence :
    (deleteWordModel.deleteWord).map
      (fun r => (domText r.1.state.dom,
                 r.1.previousStates.map (fun (st : ComposerState) => domText st.dom),
                 domText r.1.undo.state.dom,
                 domText r.1.undo.redo.state.dom)) =
      some ("a".toList, ["abc".toList, "a bc".toList],
            "abc".toList, "a".toList) ∧
    domText deleteWordModel.state.dom = "a bc".toList ∧
    "abc".toList ≠ "a bc".toList := by
  refine ⟨rfl, rfl, by decide⟩

/-! ## Claim theorems C1 and C5 -/

/-- C1 fails on the code: on the selection_type_remove document, with the
selection 3 to 8 whose every text leaf sits inside a bold ancestor, the
selection type is Remove, yet format leaves the document completely
unchanged: the Remove arm of format_several_nodes is an empty TODO block,
so no formatting container is unwrapped or split. -/
theorem c1_remove_case_unimplemented :
    c1Dom.findRange 3 8 = Range.multipleNodes c1Locs 3 8 ∧
    checkFormatSelectionType c1Dom c1Locs InlineFormatType.bold =
      FormatSelectionType.remove ∧
    formatSeveralNodes c1Dom c1Locs InlineFormatType.bold = some c1Dom ∧
    (c1Model.format InlineFormatType.bold).map (fun r => r.1.state.dom) =
      some c1Dom ∧
    isFormatNodeAt c1Dom (DomHandle.fromRaw [0]) InlineFormatType.bold = true := by
  refine ⟨rfl, by decide, rfl, rfl, by decide⟩

/-- Counterexample to C5: a formatting container parsed from the alias
tag b keeps that name, and the document serializes to the alias tag, with
no strong tag anywhere in the output. -/
theorem c5_counterexample :
    ContainerNode.newFormattingFromTag "b".toList [DomNode.newText ['x']] =
      some aliasBoldContainer ∧
    (mkDocument [DomNode.container aliasBoldContainer]).toHtml =
      "<b>x</b>".toList ∧
    ¬ "strong".toList <:+: (mkDocument [DomNode.container aliasBoldContainer]).toHtml := by
  refine ⟨rfl, by decide, by decide⟩

/-- C5 as the code behaves: serialization emits the stored tag name of a
container.  Containers built from an InlineFormatType value carry the
canonical tags strong, em and del, while containers built from an alias
tag by new_formatting_from_tag keep the alias as their name and serialize
with it. -/
theorem c5_amended :
    (∀ (format : InlineFormatType) (children : List DomNode),
      fmtHtmlContainer (ContainerNode.newFormatting format children) =
        '<' :: format.tag ++ '>' :: fmtHtmlChildren children ++
          ('<' :: '/' :: format.tag ++ ['>'])) ∧
    (InlineFormatType.bold.tag = "strong".toList ∧
     InlineFormatType.italic.tag = "em".toList ∧
     InlineFormatType.strikeThrough.tag = "del".toList) ∧
    (∀ (tagName : List Char) (children : List DomNode) (c : ContainerNode),
      ContainerNode.newFormattingFromTag tagName children = some c →
      fmtHtmlContainer c =
        '<' :: tagName ++ '>' :: fmtHtmlChildren children ++
          ('<' :: '/' :: tagName ++ ['>'])) := by
  refine ⟨?_, ⟨rfl, rfl, rfl⟩, ?_⟩
  · intro format children
    have hne : format.tag.isEmpty = false := by cases format <;> rfl
    simp [ContainerNode.newFormatting, fmtHtmlContainer, hne, fmtAttrs]
  · intro tagName children c hc
    rw [ContainerNode.newFormattingFromTag, Option.map_eq_some'] at hc
    obtain ⟨f, hf, hc⟩ := hc
    subst hc
    have hne : tagName.isEmpty = false := by
      rw [InlineFormatType.tryFromTag] at hf
      split_ifs at hf with h1 h2 h3 h4 h5
      · rcases h1 with h | h <;> subst h <;> rfl
      · rcases h2 with h | h <;> subst h <;> rfl
      · subst h3; rfl
      · subst h4; rfl
      · subst h5; rfl
    simp [fmtHtmlContainer, hne, fmtAttrs]

/-- Witness for C5: a fresh bold container serializes with strong, and
the alias container built from tag b serializes with b. -/
theorem c5_witness :
    fmtHtmlContainer
        (ContainerNode.newFormatting InlineFormatType.bold
          [DomNode.newText ['x']]) =
      '<' :: "strong".toList ++ '>' ::
        fmtHtmlChildren [DomNode.newText ['x']] ++
        ('<' :: '/' :: "strong".toList ++ ['>']) ∧
    fmtHtmlContainer aliasBoldContainer =
      '<' :: "b".toList ++ '>' :: fmtHtmlChildren [DomNode.newText ['x']] ++
        ('<' :: '/' :: "b".toList ++ ['>']) :=
  ⟨c5_amended.1 InlineFormatType.bold [DomNode.newText ['x']],
   c5_amended.2.2 "b".toList [DomNode.newText ['x']] aliasBoldContainer rfl⟩

/-! ## Claim C4: lemmas on the space replacement of TextNode::fmt_html -/

theorem replaceTwoSpaces_cons2 (c1 c2 : Char) (r : List Char) :
    replaceTwoSpaces (c1 :: c2 :: r) =
      if c1 = ' ' ∧ c2 = ' ' then nbspChar :: nbspChar :: replaceTwoSpaces r
      else c1 :: replaceTwoSpaces (c2 :: r) := by
  rw [replaceTwoSpaces.eq_def]
  split
  next rest heq =>
    obtain ⟨h1, h2, h3⟩ : c1 = ' ' ∧ c2 = ' ' ∧ r = rest := by
      injection heq with ha hb
      injection hb with hb hc
      exact ⟨ha, hb, hc⟩
    subst h1; subst h2; subst h3
    simp
  next c rest hne heq =>
    injection heq with ha hb
    subst ha
    subst hb
    rw [if_neg]
    intro ⟨h1, h2⟩
    subst h1; subst h2
    exact hne r rfl rfl
  next heq => exact absurd heq (by simp)

theorem replaceTwoSpaces_singleton (c : Char) : replaceTwoSpaces [c] = [c] := by
  rw [replaceTwoSpaces.eq_def]
  split
  all_goals simp_all
  all_goals rfl

theorem replaceTwoSpaces_ne_nil (x : Char) (l : List Char) :
    replaceTwoSpaces (x :: l) ≠ [] := by
  cases l with
  | nil => rw [replaceTwoSpaces_singleton]; simp
  | cons c2 r =>
    rw [replaceTwoSpaces_cons2]
    split <;> simp

/-- Wherever the input contains a pair of adjacent spaces, the output of
the pair replacement contains a pair of adjacent no-break spaces. -/
theorem pair_infix_replaceTwoSpaces :
    ∀ (s t : List Char),
      [nbspChar, nbspChar] <:+: replaceTwoSpaces (s ++ ' ' :: ' ' :: t)
  | [], t => by
    simp only [List.nil_append]
    rw [replaceTwoSpaces_cons2, if_pos ⟨rfl, rfl⟩]
    exact ⟨[], replaceTwoSpaces t, rfl⟩
  | [c], t => by
    by_cases hc : c = ' '
    · subst hc
      simp only [List.cons_append, List.nil_append]
      rw [replaceTwoSpaces_cons2, if_pos ⟨rfl, rfl⟩]
      exact ⟨[], replaceTwoSpaces (' ' :: t), rfl⟩
    · simp only [List.cons_append, List.nil_append]
      rw [replaceTwoSpaces_cons2, if_neg (fun h => hc h.1)]
      exact List.infix_cons (pair_infix_replaceTwoSpaces [] t)
  | c1 :: c2 :: s', t => by
    by_cases h12 : c1 = ' ' ∧ c2 = ' '
    · obtain ⟨h1, h2⟩ := h12
      subst h1; subst h2
      simp only [List.cons_append]
      rw [replaceTwoSpaces_cons2, if_pos ⟨rfl, rfl⟩]
      exact List.infix_cons (List.infix_cons (pair_infix_replaceTwoSpaces s' t))
    · simp only [List.cons_append]
      rw [replaceTwoSpaces_cons2, if_neg h12]
      exact List.infix_cons (pair_infix_replaceTwoSpaces (c2 :: s') t)

/-- The pair replacement turns a trailing space into a trailing space or
a trailing no-break space (the latter when it was the second of a pair). -/
theorem replaceTwoSpaces_getLast :
    ∀ (l : List Char), l.getLast? = some ' ' →
      (replaceTwoSpaces l).getLast? = some ' ' ∨
      (replaceTwoSpaces l).getLast? = some nbspChar
  | [], h => by simp at h
  | [c], h => by
    rw [replaceTwoSpaces_singleton]
    exact Or.inl h
  | c1 :: c2 :: s', h => by
    rw [List.getLast?_cons_cons] at h
    rw [replaceTwoSpaces_cons2]
    by_cases h12 : c1 = ' ' ∧ c2 = ' '
    · rw [if_pos h12]
      cases s' with
      | nil =>
        right
        rfl
      | cons x s'' =>
        have hrec := replaceTwoSpaces_getLast (x :: s'')
          (by rw [List.getLast?_cons_cons] at h; exact h)
        cases hx : replaceTwoSpaces (x :: s'') with
        | nil => exact absurd hx (replaceTwoSpaces_ne_nil x s'')
        | cons y ys =>
          rw [hx] at hrec
          rw [List.getLast?_cons_cons, List.getLast?_cons_cons]
          exact hrec
    · rw [if_neg h12]
      have hrec := replaceTwoSpaces_getLast (c2 :: s') h
      cases hx : replaceTwoSpaces (c2 :: s') with
      | nil => exact absurd hx (replaceTwoSpaces_ne_nil c2 s')
      | cons y ys =>
        rw [hx] at hrec
        rw [List.getLast?_cons_cons]
        exact hrec

/-- Replacing a trailing space cannot destroy a no-break-space pair
located elsewhere in the list. -/
theorem infix_dropLast_nbsp (l : List Char)
    (h : [nbspChar, nbspChar] <:+: l) (hl : l.getLast? = some ' ') :
    [nbspChar, nbspChar] <:+: (l.dropLast ++ [nbspChar]) := by
  obtain ⟨u, v, huv⟩ := h
  rcases List.eq_nil_or_concat v with rfl | ⟨v', a, rfl⟩
  · exfalso
    rw [← huv] at hl
    rw [List.append_nil, show u ++ [nbspChar, nbspChar] =
      (u ++ [nbspChar]) ++ [nbspChar] by simp, List.getLast?_concat] at hl
    simp at hl
    exact absurd hl (by decide)
  · rw [← huv, List.concat_eq_append,
      show u ++ [nbspChar, nbspChar] ++ (v' ++ [a]) =
        (u ++ [nbspChar, nbspChar] ++ v') ++ [a] by simp,
      List.dropLast_concat]
    exact ⟨u, v' ++ [nbspChar], by simp⟩

theorem htmlEscape_append (a b : List Char) :
    htmlEscape (a ++ b) = htmlEscape a ++ htmlEscape b :=
  List.flatMap_append a b escapeChar

theorem htmlEscape_space_pair (s u : List Char) :
    htmlEscape (s ++ ' ' :: ' ' :: u) =
      htmlEscape s ++ ' ' :: ' ' :: htmlEscape u := by
  rw [htmlEscape_append]
  rfl

/-- Counterexample to C4: a text node whose data ends in a space but that
is not the last node in its parent keeps the plain trailing space. -/
theorem c4_counterexample :
    fmtHtmlTextNode trailingSpaceText false = ['a', ' '] ∧
    (fmtHtmlTextNode trailingSpaceText false).getLast? = some ' ' ∧
    ' ' ≠ nbspChar := by
  refine ⟨rfl, rfl, by decide⟩

/-- C4 as the code behaves: every pair of adjacent spaces in the data is
emitted as a pair of no-break spaces, and a trailing space is emitted as
a no-break space when the text node is the last node in its parent. -/
theorem c4_amended :
    (∀ (t : TextNode) (isLast : Bool) (s u : List Char),
      t.data = s ++ ' ' :: ' ' :: u →
      [nbspChar, nbspChar] <:+: fmtHtmlTextNode t isLast) ∧
    (∀ (t : TextNode), t.data.getLast? = some ' ' →
      (fmtHtmlTextNode t true).getLast? = some nbspChar) := by
  constructor
  · intro t isLast s u hdata
    have hpair : [nbspChar, nbspChar] <:+:
        replaceTwoSpaces (htmlEscape t.data) := by
      rw [hdata, htmlEscape_space_pair]
      exact pair_infix_replaceTwoSpaces (htmlEscape s) (htmlEscape u)
    rw [fmtHtmlTextNode]
    split
    next hcond =>
      apply infix_dropLast_nbsp _ hpair
      have h2 := (Bool.and_eq_true _ _).mp hcond |>.2
      simpa using h2
    next => exact hpair
  · intro t hlast
    have hne : t.data ≠ [] := by
      intro h0
      rw [h0] at hlast
      simp at hlast
    obtain ⟨d, a, hd⟩ : ∃ d a, t.data = d ++ [a] := by
      rcases List.eq_nil_or_concat t.data with h0 | ⟨d, a, h0⟩
      · exact absurd h0 hne
      · exact ⟨d, a, by rw [h0, List.concat_eq_append]⟩
    have ha : a = ' ' := by
      rw [hd, List.getLast?_concat] at hlast
      injection hlast
    subst ha
    have hesc : (htmlEscape t.data).getLast? = some ' ' := by
      rw [hd, htmlEscape_append,
        show htmlEscape [' '] = [' '] from rfl, List.getLast?_concat]
    rcases replaceTwoSpaces_getLast (htmlEscape t.data) hesc with hsp | hnb
    · rw [fmtHtmlTextNode]
      rw [if_pos (by simp [hsp])]
      exact List.getLast?_concat _
    · rw [fmtHtmlTextNode]
      rw [if_neg (by simp [hnb]; decide)]
      exact hnb

/-- Witness for C4: a data with a space pair produces a no-break pair in
the output for a non-last node, and the trailing-space node as last node
ends in a no-break space. -/
theorem c4_witness :
    (⟨"a  b".toList, DomHandle.fromRaw [0]⟩ : TextNode).data =
      "a".toList ++ ' ' :: ' ' :: "b".toList ∧
    [nbspChar, nbspChar] <:+:
      fmtHtmlTextNode ⟨"a  b".toList, DomHandle.fromRaw [0]⟩ false ∧
    trailingSpaceText.data.getLast? = some ' ' ∧
    (fmtHtmlTextNode trailingSpaceText true).getLast? = some nbspChar :=
  ⟨rfl,
   c4_amended.1 ⟨"a  b".toList, DomHandle.fromRaw [0]⟩ false
     "a".toList "b".toList rfl,
   rfl,
   c4_amended.2 trailingSpaceText rfl⟩

/-! ## Claim theorem C9 -/

/-- C9: each child-list mutation of a container (append_child,
remove_child, insert_child, replace_child) preserves the invariant that
every child's stored handle equals the container's handle extended by the
child's current index, recursively down the subtree, whenever the
operation completes (none models a failed source assertion). -/
theorem c9_child_mutations_preserve_handles (c : ContainerNode)
    (child node : DomNode) (index : Nat) (nodes : List DomNode)
    (hv : c.selfConsistent = true) :
    ((c.appendChild child).all fun r => r.1.selfConsistent) = true ∧
    ((c.removeChild index).all fun r => r.1.selfConsistent) = true ∧
    ((c.insertChild index node).all fun r => r.selfConsistent) = true ∧
    ((c.replaceChild index nodes).all fun r => r.1.selfConsistent) = true := by
  refine ⟨?_, ?_, ?_, ?_⟩
  · cases h : c.appendChild child with
    | none => rfl
    | some r =>
      simp only [Option.all_some]
      exact appendChild_selfConsistent c r.1 child r.2 hv h
  · cases h : c.removeChild index with
    | none => rfl
    | some r =>
      simp only [Option.all_some]
      exact removeChild_selfConsistent c r.1 r.2 index hv h
  · cases h : c.insertChild index node with
    | none => rfl
    | some r =>
      simp only [Option.all_some]
      exact insertChild_selfConsistent c r node index hv h
  · cases h : c.replaceChild index nodes with
    | none => rfl
    | some r =>
      simp only [Option.all_some]
      exact replaceChild_selfConsistent c r.1 nodes r.2 index hv h

/-- Witness for C9 on the handle-test container with two text children. -/
theorem c9_witness :
    c9Container.selfConsistent = true ∧
    ((c9Container.appendChild (DomNode.newText ['2'])).all
      fun r => r.1.selfConsistent) = true ∧
    ((c9Container.removeChild 0).all fun r => r.1.selfConsistent) = true ∧
    ((c9Container.insertChild 0 (DomNode.newText ['x'])).all
      fun r => r.selfConsistent) = true ∧
    ((c9Container.replaceChild 0
        [DomNode.newText ['p'], DomNode.newText ['q']]).all
      fun r => r.1.selfConsistent) = true :=
  have H := c9_child_mutations_preserve_handles c9Container
    (DomNode.newText ['2']) (DomNode.newText ['x']) 0
    [DomNode.newText ['p'], DomNode.newText ['q']] (by decide)
  ⟨by decide, H.1, H.2.1, H.2.2.1, H.2.2.2⟩

end Wysiwyg
